import Mathlib

/-!
Verification of the `zbase::Octets` copy-on-write byte string
(`src/zbase/octets.h`).

The header declares the class; the accessor bodies (`GetData`, `GetSize`,
`IsEmpty`), the reference-count primitives (`IsShared`, `AddRef`, `Release`)
and the comparison operators / `operator+=` are inline in the header and are
translated from it directly.  The bodies of `Compare`, `Assign`, `Append`,
`Swap`, `Clear`, the constructors, `Rep::Rep`, `Rep::Reserve` and the
non-member `operator+` live in an `octets.cpp` that is not part of the
source tree; those are modelled from the specification, and each such
definition says so in its doc comment.

Bytes are modelled as natural numbers (values of `unsigned char`); a buffer
is its list of logical bytes (the first `m_size` bytes of `m_data`).
-/

namespace ZBase

/-- Content-level view of an `Octets` handle.  `m_rep = none` models the
`NULL` representation pointer; `m_rep = some c` models a handle whose
`Rep` currently holds logical content `c` (the first `m_size` bytes of
`m_data`). -/
structure Octets where
  m_rep : Option (List Nat)
deriving DecidableEq, Repr

/-- Translated from `octets.h` line 194:
`GetData() { return NULL == m_rep ? NULL : m_rep->GetData(); }`.
`none` models the `NULL` pointer; `some c` models a non-null pointer to a
buffer whose logical bytes are `c`. -/
def Octets.GetData (o : Octets) : Option (List Nat) :=
  match o.m_rep with
  | none => none
  | some c => some c

/-- Translated from `octets.h` line 198:
`GetSize() { return NULL == m_rep ? 0 : m_rep->GetSize(); }`. -/
def Octets.GetSize (o : Octets) : Nat :=
  match o.m_rep with
  | none => 0
  | some c => c.length

/-- Translated from `octets.h` line 202:
`IsEmpty() { return NULL == m_rep || m_rep->GetSize() == 0; }`. -/
def Octets.IsEmpty (o : Octets) : Bool :=
  match o.m_rep with
  | none => true
  | some c => c.length == 0

/-- The byte sequence a handle denotes: empty for a null representation.
Helper for stating theorems and for modelling `Compare`, which treats a
null side as the empty buffer (without dereferencing it). -/
def Octets.bytes (o : Octets) : List Nat :=
  match o.m_rep with
  | none => []
  | some c => c

/-- Byte-wise three-way comparison: compare the common prefix byte by byte;
if one list is exhausted first, the shorter sorts first.  This is the
lexicographic-then-length rule. -/
def compareBytes : List Nat → List Nat → Int
  | [], [] => 0
  | [], _ :: _ => -1
  | _ :: _, [] => 1
  | a :: as, b :: bs =>
      if a < b then -1 else if b < a then 1 else compareBytes as bs

/-- Modelled from the spec: the body of `Octets::Compare` is only declared in
`octets.h` (line 208); the spec (§4.2) defines it as lexicographic byte
comparison, then by length, returning −1/0/1, handling either side being
empty (null representation) without dereferencing. -/
def Octets.Compare (a b : Octets) : Int :=
  compareBytes a.bytes b.bytes

/-- Translated from `octets.h` line 251:
`operator == { return GetSize() == rhs.GetSize() && Compare(rhs) == 0; }`. -/
def Octets.beq (a b : Octets) : Bool :=
  a.GetSize == b.GetSize && a.Compare b == 0

/-- Translated from `octets.h` line 259: `operator < { return Compare(rhs) < 0; }`. -/
def Octets.lt (a b : Octets) : Bool :=
  decide (a.Compare b < 0)

/-- Translated from `octets.h` line 255: `operator > { return Compare(rhs) > 0; }`. -/
def Octets.gt (a b : Octets) : Bool :=
  decide (a.Compare b > 0)

/-- Modelled from the spec: the body of `Octets::Append(const void*, size_t)`
is only declared in `octets.h` (line 224).  Spec §4.2: grows the logical
content by the given bytes (cloning first when shared — invisible at this
content level); "Appending zero bytes is a no-op that still must not crash
on null data", so a zero-length append leaves the handle exactly as it was. -/
def Octets.Append (o : Octets) (d : List Nat) : Octets :=
  if d.length = 0 then o else ⟨some (o.bytes ++ d)⟩

/-- Translated from `octets.h` line 249:
`operator += { return Append(rhs.GetData(), rhs.GetSize()); }` — forwards the
right-hand side's data pointer (null for an empty handle) and size. -/
def Octets.addAssign (o rhs : Octets) : Octets :=
  o.Append rhs.bytes

/-- Modelled from the spec: the body of `Octets::Assign` is only declared in
`octets.h` (line 220).  Spec §4.2: "unconditionally replaces this Handle's
content with a private copy of the given bytes". -/
def Octets.Assign (_o : Octets) (d : List Nat) : Octets :=
  ⟨some d⟩

/-- Modelled from the spec: the body of `Octets::Clear` is only declared in
`octets.h` (line 236).  Spec §4.2: releases the current representation
reference and resets to the empty state. -/
def Octets.Clear (_o : Octets) : Octets :=
  ⟨none⟩

/-- Modelled from the spec: the `Octets(const void*, size_t)` constructor body
is not in the source tree.  Spec §4.2: allocates a private representation
holding a copy of the given bytes. -/
def Octets.ofBytes (d : List Nat) : Octets :=
  ⟨some d⟩

/-- The bytes of a C++ string, for the `Octets(const std::string&)`
constructor. -/
def strBytes (s : String) : List Nat :=
  s.toList.map Char.toNat

/-- Modelled from the spec: the `Octets(const std::string&)` constructor body
is not in the source tree; it copies the string's bytes into a fresh
representation. -/
def Octets.ofString (s : String) : Octets :=
  Octets.ofBytes (strBytes s)

/-- Modelled from the spec: the non-member `operator+` (declared at
`octets.h` line 275) "returns a new Handle holding the byte-wise
concatenation of two operands without mutating either" — a copy of the left
operand followed by `operator+=` with the right one. -/
def Octets.opAdd (a b : Octets) : Octets :=
  a.addAssign b

/-- Observable state of a handle at the value level: size, logical byte
content and emptiness (what `GetSize`, the sanctioned byte reads and
`IsEmpty` report). -/
def Octets.obsEq (a b : Octets) : Prop :=
  a.GetSize = b.GetSize ∧ a.bytes = b.bytes ∧ a.IsEmpty = b.IsEmpty

theorem Octets.getSize_eq_bytes_length (o : Octets) :
    o.GetSize = o.bytes.length := by
  cases o with
  | mk r => cases r <;> rfl

theorem compareBytes_self (l : List Nat) : compareBytes l l = 0 := by
  induction l with
  | nil => rfl
  | cons a as ih => simp [compareBytes, ih]

theorem Octets.append_bytes (o : Octets) (d : List Nat) :
    (o.Append d).bytes = o.bytes ++ d := by
  unfold Octets.Append
  by_cases h : d.length = 0
  · simp [h, List.length_eq_zero.mp h]
  · simp [h, Octets.bytes]

/-- C5: for every handle whose representation pointer is null, `GetSize()`
returns 0, `GetData()` returns the null pointer and `IsEmpty()` returns
true; none of the three dereferences a representation (their null branch is
taken). -/
theorem empty_handle_accessors (o : Octets) (h : o.m_rep = none) :
    o.GetSize = 0 ∧ o.GetData = none ∧ o.IsEmpty = true := by
  cases o with
  | mk r =>
    cases r with
    | none => exact ⟨rfl, rfl, rfl⟩
    | some c => simp at h

/-- Witness for C5 at the concrete null-representation handle. -/
theorem empty_handle_accessors_witness :
    (Octets.mk none).m_rep = none ∧
      ((Octets.mk none).GetSize = 0 ∧ (Octets.mk none).GetData = none ∧
        (Octets.mk none).IsEmpty = true) :=
  ⟨rfl, empty_handle_accessors (Octets.mk none) rfl⟩

/-- C10: `IsEmpty()` returns true exactly when `GetSize()` returns 0; in
particular a handle holding a representation of logical size zero is
reported empty, exactly like a handle with a null representation pointer. -/
theorem isEmpty_iff_getSize_zero :
    (∀ o : Octets, o.IsEmpty = true ↔ o.GetSize = 0) ∧
      (Octets.mk (some [])).IsEmpty = (Octets.mk none).IsEmpty := by
  constructor
  · intro o
    cases o with
    | mk r =>
      cases r with
      | none => simp [Octets.IsEmpty, Octets.GetSize]
      | some c => simp [Octets.IsEmpty, Octets.GetSize]
  · rfl

/-- C2: appending `B` to a handle holding `A` yields exactly the bytes of `A`
followed by `B`, with size `len A + len B`; `operator+` builds a new handle
(the model is pure, so the operands are untouched by construction), and the
concrete scenario `Octets("abc") + Octets("def")` has size 6, content
"abcdef", and compares equal to `Octets("abcdef")`. -/
theorem append_concatenates :
    (∀ A B : List Nat,
        ((Octets.ofBytes A).Append B).bytes = A ++ B ∧
        ((Octets.ofBytes A).Append B).GetSize = A.length + B.length) ∧
      (∀ A B : List Nat,
        ((Octets.ofBytes A).opAdd (Octets.ofBytes B)).bytes = A ++ B) ∧
      ((Octets.ofString "abc").opAdd (Octets.ofString "def")).GetSize = 6 ∧
      ((Octets.ofString "abc").opAdd (Octets.ofString "def")).bytes
          = strBytes "abcdef" ∧
      ((Octets.ofString "abc").opAdd (Octets.ofString "def")).Compare
          (Octets.ofString "abcdef") = 0 := by
  refine ⟨fun A B => ⟨Octets.append_bytes _ _, ?_⟩, fun A B => ?_, ?_, ?_, ?_⟩
  · rw [Octets.getSize_eq_bytes_length, Octets.append_bytes]
    simp [Octets.ofBytes, Octets.bytes]
  · simpa [Octets.opAdd, Octets.addAssign, Octets.ofBytes, Octets.bytes]
      using Octets.append_bytes (Octets.ofBytes A) B
  · decide
  · decide
  · decide

/-- C8: appending zero bytes — as `operator+=` does when the right-hand side
is empty and forwards a null `GetData()` with size 0 — is a no-op: the
handle is returned unchanged (same representation, hence same content and
size), and in the model the data argument is never inspected when the size
is zero (the null pointer is never dereferenced). -/
theorem append_zero_noop :
    (∀ o : Octets, o.Append [] = o) ∧
      (∀ o rhs : Octets, rhs.IsEmpty = true → o.addAssign rhs = o) := by
  constructor
  · intro o
    simp [Octets.Append]
  · intro o rhs h
    have hb : rhs.bytes = [] := by
      cases rhs with
      | mk r =>
        cases r with
        | none => rfl
        | some c =>
          simp [Octets.IsEmpty] at h
          simp [Octets.bytes, h]
    simp [Octets.addAssign, hb, Octets.Append]

/-- Witness for C8 at a concrete handle and a concrete empty right-hand
side. -/
theorem append_zero_noop_witness :
    (Octets.ofBytes [1, 2]).Append [] = Octets.ofBytes [1, 2] ∧
      ((Octets.mk none).IsEmpty = true ∧
        (Octets.ofBytes [1, 2]).addAssign (Octets.mk none)
          = Octets.ofBytes [1, 2]) :=
  ⟨append_zero_noop.1 _, by decide,
    append_zero_noop.2 (Octets.ofBytes [1, 2]) (Octets.mk none) (by decide)⟩

/-- C7: after `Clear()` the handle is observably empty (`IsEmpty()` true,
`GetSize()` 0); `Clear()` on an already-empty handle changes none of the
observable state (size, byte content, emptiness); and two `Assign` calls
with the same bytes produce handles that `operator==` reports equal. -/
theorem clear_and_assign_idempotence :
    (∀ o : Octets, (o.Clear).IsEmpty = true ∧ (o.Clear).GetSize = 0) ∧
      (∀ o : Octets, o.IsEmpty = true → o.obsEq o.Clear) ∧
      (∀ (o o' : Octets) (d : List Nat), (o.Assign d).beq (o'.Assign d) = true) := by
  refine ⟨fun o => ⟨rfl, rfl⟩, fun o h => ?_, fun o o' d => ?_⟩
  · cases o with
    | mk r =>
      cases r with
      | none => exact ⟨rfl, rfl, rfl⟩
      | some c =>
        simp [Octets.IsEmpty] at h
        refine ⟨?_, ?_, ?_⟩ <;>
          simp [Octets.Clear, Octets.GetSize, Octets.bytes, Octets.IsEmpty, h]
  · simp [Octets.Assign, Octets.beq, Octets.GetSize, Octets.Compare,
      Octets.bytes, compareBytes_self]

theorem compareBytes_mem : ∀ a b : List Nat,
    compareBytes a b = -1 ∨ compareBytes a b = 0 ∨ compareBytes a b = 1
  | [], [] => by simp [compareBytes]
  | [], _ :: _ => by simp [compareBytes]
  | _ :: _, [] => by simp [compareBytes]
  | x :: as, y :: bs => by
      simp only [compareBytes]
      split_ifs with h1 h2
      · simp
      · simp
      · exact compareBytes_mem as bs

theorem compareBytes_eq_zero_iff : ∀ a b : List Nat,
    compareBytes a b = 0 ↔ a = b
  | [], [] => by simp [compareBytes]
  | [], _ :: _ => by simp [compareBytes]
  | _ :: _, [] => by simp [compareBytes]
  | x :: as, y :: bs => by
      simp only [compareBytes]
      split_ifs with h1 h2
      · constructor
        · intro h; exact absurd h (by decide)
        · intro h; injection h with hh _; omega
      · constructor
        · intro h; exact absurd h (by decide)
        · intro h; injection h with hh _; omega
      · have hxy : x = y := by omega
        subst hxy
        rw [compareBytes_eq_zero_iff as bs]
        constructor
        · intro h; rw [h]
        · intro h; injection h

theorem compareBytes_trans : ∀ a b c : List Nat,
    compareBytes a b = -1 → compareBytes b c = -1 → compareBytes a c = -1
  | [], [], _, h1, _ => by simp [compareBytes] at h1
  | [], _ :: _, [], _, h2 => by simp [compareBytes] at h2
  | [], _ :: _, _ :: _, _, _ => rfl
  | _ :: _, [], _, h1, _ => by simp [compareBytes] at h1
  | _ :: _, _ :: _, [], _, h2 => by simp [compareBytes] at h2
  | x :: as, y :: bs, z :: cs, h1, h2 => by
      simp only [compareBytes] at h1 h2 ⊢
      rcases Nat.lt_trichotomy x y with hxy | hxy | hxy
      · rcases Nat.lt_trichotomy y z with hyz | hyz | hyz
        · rw [if_pos (show x < z by omega)]
        · rw [if_pos (show x < z by omega)]
        · rw [if_neg (by omega), if_pos hyz] at h2
          exact absurd h2 (by decide)
      · rw [if_neg (by omega), if_neg (by omega)] at h1
        rcases Nat.lt_trichotomy y z with hyz | hyz | hyz
        · rw [if_pos (show x < z by omega)]
        · rw [if_neg (by omega), if_neg (by omega)] at h2
          rw [if_neg (by omega), if_neg (by omega)]
          exact compareBytes_trans as bs cs h1 h2
        · rw [if_neg (by omega), if_pos hyz] at h2
          exact absurd h2 (by decide)
      · rw [if_neg (by omega), if_pos hxy] at h1
        exact absurd h1 (by decide)

theorem lex_of_compareBytes_neg : ∀ a b : List Nat,
    compareBytes a b = -1 → List.Lex (· < ·) a b
  | [], [], h => absurd h (by decide)
  | [], _ :: _, _ => List.Lex.nil
  | _ :: _, [], h => by
      simp only [compareBytes] at h
      exact absurd h (by decide)
  | x :: as, y :: bs, h => by
      simp only [compareBytes] at h
      split_ifs at h with h1 h2
      · exact List.Lex.rel h1
      · have hxy : x = y := by omega
        subst hxy
        exact List.Lex.cons (lex_of_compareBytes_neg as bs h)

theorem compareBytes_neg_of_lex {a b : List Nat}
    (h : List.Lex (· < ·) a b) : compareBytes a b = -1 := by
  induction h with
  | nil => rfl
  | cons h ih =>
      simp only [compareBytes]
      rw [if_neg (lt_irrefl _), if_neg (lt_irrefl _)]
      exact ih
  | rel h =>
      simp only [compareBytes]
      rw [if_pos h]

theorem compareBytes_neg_one_iff_lex (a b : List Nat) :
    compareBytes a b = -1 ↔ List.Lex (· < ·) a b :=
  ⟨lex_of_compareBytes_neg a b, compareBytes_neg_of_lex⟩

theorem Octets.compare_neg_iff (a b : Octets) :
    a.Compare b < 0 ↔ compareBytes a.bytes b.bytes = -1 := by
  rcases compareBytes_mem a.bytes b.bytes with h | h | h <;>
    simp [Octets.Compare, h]

theorem Octets.beq_true_iff (a b : Octets) :
    a.beq b = true ↔ compareBytes a.bytes b.bytes = 0 := by
  constructor
  · intro h
    simp only [Octets.beq, Bool.and_eq_true, beq_iff_eq] at h
    simpa [Octets.Compare] using h.2
  · intro h
    have hb : a.bytes = b.bytes := (compareBytes_eq_zero_iff _ _).mp h
    simp [Octets.beq, Octets.Compare, Octets.getSize_eq_bytes_length, hb,
      compareBytes_self]

/-- C4: `Compare` induces a strict total order that coincides with the
reference byte-lexicographic-then-length order (`List.Lex` on the logical
byte sequences, where a proper prefix sorts first): `operator<` holds iff
the reference order does, exactly one of `a < b`, `a == b`, `a > b` holds
for any two handles, `<` is irreflexive and transitive, and concretely
`Octets("abc") < Octets("abd")` and `Octets("ab") < Octets("abc")`. -/
theorem compare_strict_total_order :
    (∀ a b : Octets, a.lt b = true ↔ List.Lex (· < ·) a.bytes b.bytes) ∧
      (∀ a b : Octets,
        (a.lt b = true ∧ a.beq b = false ∧ a.gt b = false) ∨
        (a.lt b = false ∧ a.beq b = true ∧ a.gt b = false) ∨
        (a.lt b = false ∧ a.beq b = false ∧ a.gt b = true)) ∧
      (∀ a : Octets, a.lt a = false) ∧
      (∀ a b c : Octets, a.lt b = true → b.lt c = true → a.lt c = true) ∧
      (Octets.ofString "abc").lt (Octets.ofString "abd") = true ∧
      (Octets.ofString "ab").lt (Octets.ofString "abc") = true := by
  refine ⟨fun a b => ?_, fun a b => ?_, fun a => ?_, fun a b c h1 h2 => ?_,
    by decide, by decide⟩
  · rw [Octets.lt, decide_eq_true_iff, Octets.compare_neg_iff,
      compareBytes_neg_one_iff_lex]
  · rcases compareBytes_mem a.bytes b.bytes with h | h | h
    · refine Or.inl ⟨?_, ?_, ?_⟩
      · simp [Octets.lt, Octets.Compare, h]
      · rw [Bool.eq_false_iff]
        intro hb
        rw [Octets.beq_true_iff] at hb
        omega
      · simp [Octets.gt, Octets.Compare, h]
    · refine Or.inr (Or.inl ⟨?_, ?_, ?_⟩)
      · simp [Octets.lt, Octets.Compare, h]
      · rw [Octets.beq_true_iff]; exact h
      · simp [Octets.gt, Octets.Compare, h]
    · refine Or.inr (Or.inr ⟨?_, ?_, ?_⟩)
      · simp [Octets.lt, Octets.Compare, h]
      · rw [Bool.eq_false_iff]
        intro hb
        rw [Octets.beq_true_iff] at hb
        omega
      · simp [Octets.gt, Octets.Compare, h]
  · simp [Octets.lt, Octets.Compare, compareBytes_self]
  · rw [Octets.lt, decide_eq_true_iff, Octets.compare_neg_iff] at h1 h2 ⊢
    exact compareBytes_trans _ _ _ h1 h2

/-- Witness for C4: the transitivity component applied at concrete handles,
with both hypotheses discharged by evaluation. -/
theorem compare_strict_total_order_witness :
    (Octets.ofBytes [1]).lt (Octets.ofBytes [1, 5]) = true ∧
      (Octets.ofBytes [1, 5]).lt (Octets.ofBytes [2]) = true ∧
      (Octets.ofBytes [1]).lt (Octets.ofBytes [2]) = true :=
  ⟨by decide, by decide,
    compare_strict_total_order.2.2.2.1 (Octets.ofBytes [1])
      (Octets.ofBytes [1, 5]) (Octets.ofBytes [2]) (by decide) (by decide)⟩

/-- Witness for C7 at a concrete already-empty handle. -/
theorem clear_and_assign_idempotence_witness :
    (Octets.mk (some [])).IsEmpty = true ∧
      (Octets.mk (some [])).obsEq (Octets.mk (some [])).Clear :=
  ⟨by decide, clear_and_assign_idempotence.2.1 (Octets.mk (some [])) (by decide)⟩

namespace Shared

/-- Heap-level view of `Octets::Rep`: the logical content (the first `m_size`
bytes of `m_data`) and the reference counter `m_refno`.  Capacity and the
uninitialized slack past `m_size` are not observable through any accessor
and are elided here (the buffer model for the failure-safety claim keeps
them). -/
structure HRep where
  content : List Nat
  refno : Int
deriving DecidableEq, Repr

/-- Translated from `octets.h` line 82: `IsShared() { return m_refno > 0; }`. -/
def HRep.IsShared (r : HRep) : Bool :=
  decide (r.refno > 0)

/-- Translated from `octets.h` line 100 (single-threaded branch of `AddRef`):
`++m_refno`. -/
def HRep.AddRef (r : HRep) : HRep :=
  { r with refno := r.refno + 1 }

/-- The heap of live representations: an association list from address to
representation. -/
abbrev Heap := List (Nat × HRep)

def hfind : Heap → Nat → Option HRep
  | [], _ => none
  | (j, r) :: t, i => if i = j then some r else hfind t i

def hset : Heap → Nat → HRep → Heap
  | [], _, _ => []
  | (j, r) :: t, i, r2 => if i = j then (j, r2) :: t else (j, r) :: hset t i r2

def hdel : Heap → Nat → Heap
  | [], _ => []
  | (j, r) :: t, i => if i = j then t else (j, r) :: hdel t i

/-- The world: every live representation plus the next fresh address. -/
structure World where
  heap : Heap
  next : Nat
deriving DecidableEq, Repr

/-- A handle is its `m_rep` pointer: `none` for `NULL`, `some i` for the
representation at address `i`. -/
structure HOctets where
  m_rep : Option Nat
deriving DecidableEq, Repr

/-- Allocate a fresh representation holding `c`.  Its counter starts at the
unshared sentinel 0: a freshly constructed representation is referenced by
exactly one handle without an `AddRef`, consistent with `IsShared` being
`m_refno > 0` and `Release` deleting when the counter drops below 0. -/
def World.alloc (w : World) (c : List Nat) : World × Nat :=
  (⟨w.heap ++ [(w.next, ⟨c, 0⟩)], w.next + 1⟩, w.next)

/-- Translated from `octets.h` lines 107-118 (single-threaded branch of
`Release`), lifted to the heap: decrement `m_refno`; `delete this` when the
result is below 0. -/
def releaseAt (w : World) (i : Nat) : World :=
  match hfind w.heap i with
  | none => w
  | some r =>
      if r.refno - 1 < 0 then ⟨hdel w.heap i, w.next⟩
      else ⟨hset w.heap i { r with refno := r.refno - 1 }, w.next⟩

/-- Modelled from the spec: the `Octets(const void*, size_t)` constructor
(body in the missing octets.cpp) allocates a private representation holding
a copy of the given bytes. -/
def mkOctets (w : World) (c : List Nat) : World × HOctets :=
  let p := w.alloc c
  (p.1, ⟨some p.2⟩)

/-- Modelled from the spec: the copy constructor (body in the missing
octets.cpp) "attaches to the source's Representation and increments its
share count; no byte copy occurs". -/
def copyOctets (w : World) (x : HOctets) : World × HOctets :=
  match x.m_rep with
  | none => (w, ⟨none⟩)
  | some i =>
      match hfind w.heap i with
      | none => (w, ⟨some i⟩)
      | some r => (⟨hset w.heap i r.AddRef, w.next⟩, ⟨some i⟩)

/-- Modelled from the spec: `Append`'s clone-before-write rule (body in the
missing octets.cpp): if the current representation `IsShared()`, clone it,
copy the new bytes into the private clone, release the old reference and
attach the clone — other handles' views are untouched; if unshared, grow in
place.  A null representation gets a fresh one; appending zero bytes is a
no-op. -/
def appendOctets (w : World) (x : HOctets) (d : List Nat) : World × HOctets :=
  if d.length = 0 then (w, x)
  else
    match x.m_rep with
    | none => mkOctets w d
    | some i =>
        match hfind w.heap i with
        | none => (w, x)
        | some r =>
            if r.IsShared then
              let p := w.alloc (r.content ++ d)
              (releaseAt p.1 i, ⟨some p.2⟩)
            else
              (⟨hset w.heap i { r with content := r.content ++ d }, w.next⟩, x)

/-- Modelled from the spec: `Swap` (body in the missing octets.cpp)
"exchanges the two Handles' Representation references directly (reference
swap, not content copy)".  The world — the heap of representations, hence
every reference count — is returned untouched. -/
def swapOctets (w : World) (x y : HOctets) : World × HOctets × HOctets :=
  (w, ⟨y.m_rep⟩, ⟨x.m_rep⟩)

/-- What `GetData()` reports for handle `x` in world `w`. -/
def readData (w : World) (x : HOctets) : Option (List Nat) :=
  match x.m_rep with
  | none => none
  | some i => (hfind w.heap i).map HRep.content

/-- What `GetSize()` reports for handle `x` in world `w`. -/
def readSize (w : World) (x : HOctets) : Nat :=
  match readData w x with
  | none => 0
  | some c => c.length

/-- The copy-then-append scenario of the copy-on-write claim: build `x`
holding `A` in an empty world, copy it to `y` (the two handles share one
representation), then run `y.Append(B)`.  Returns the final world, `x` and
the post-append `y`. -/
def cowScenario (A B : List Nat) : World × HOctets × HOctets :=
  let p1 := mkOctets ⟨[], 0⟩ A
  let p2 := copyOctets p1.1 p1.2
  let p3 := appendOctets p2.1 p2.2 B
  (p3.1, p1.2, p3.2)

/-- C1: copy-on-write isolation.  For every `A` and `B`: after `x` holds `A`,
`y` is a copy of `x` (sharing one representation, `IsShared` true), and
`y.Append(B)` runs, the handle `x` still reads exactly `A` with size
`len A`, while `y` reads the concatenation `A ++ B` with size
`len A + len B` — the mutation of `y` never changed the bytes observable
through `x`. -/
theorem cow_isolation (A B : List Nat) :
    readData (cowScenario A B).1 (cowScenario A B).2.1 = some A ∧
      readSize (cowScenario A B).1 (cowScenario A B).2.1 = A.length ∧
      readData (cowScenario A B).1 (cowScenario A B).2.2 = some (A ++ B) ∧
      readSize (cowScenario A B).1 (cowScenario A B).2.2
        = A.length + B.length := by
  by_cases hB : B.length = 0
  · have hBnil : B = [] := List.length_eq_zero.mp hB
    subst hBnil
    refine ⟨?_, ?_, ?_, ?_⟩ <;>
      simp [cowScenario, mkOctets, copyOctets, appendOctets, World.alloc,
        hfind, hset, readData, readSize, HRep.AddRef]
  · refine ⟨?_, ?_, ?_, ?_⟩ <;>
      simp [cowScenario, mkOctets, copyOctets, appendOctets, World.alloc,
        hfind, hset, hdel, releaseAt, readData, readSize, HRep.AddRef,
        HRep.IsShared, hB]

/-- C6: `Swap` exchanges only the two representation references: the world it
returns is exactly the world passed in (no byte copy, no allocation, every
representation keeps its reference count), and afterward the first handle
reads the second's former bytes and size and vice versa. -/
theorem swap_semantics (w : World) (x y : HOctets) :
    (swapOctets w x y).1 = w ∧
      readData w (swapOctets w x y).2.1 = readData w y ∧
      readSize w (swapOctets w x y).2.1 = readSize w y ∧
      readData w (swapOctets w x y).2.2 = readData w x ∧
      readSize w (swapOctets w x y).2.2 = readSize w x :=
  ⟨rfl, rfl, rfl, rfl, rfl⟩

end Shared

namespace RefCount

/-- The two reference-count calls a handle can direct at one
representation. -/
inductive Ev where
  | addRef
  | release
deriving DecidableEq, Repr

/-- Lifecycle state of one representation: its `m_refno`, whether its memory
is still allocated, how many times it has been deallocated, and its
bytes. -/
structure RepLife where
  refno : Int
  alive : Bool
  deallocs : Nat
  content : List Nat
deriving DecidableEq, Repr

/-- One call, translated from `octets.h` lines 95-118 (single-threaded
branches): `AddRef` is `++m_refno`; `Release` is
`if ((--m_refno) < 0) delete this`.  The `delete` flips `alive` and counts
one deallocation; neither call touches the bytes. -/
def step (s : RepLife) : Ev → RepLife
  | .addRef => { s with refno := s.refno + 1 }
  | .release =>
      if s.refno - 1 < 0 then
        { s with refno := s.refno - 1, alive := false,
                 deallocs := s.deallocs + 1 }
      else { s with refno := s.refno - 1 }

/-- Run a sequence of calls. -/
def run (s : RepLife) (evs : List Ev) : RepLife :=
  evs.foldl step s

/-- A freshly constructed representation referenced by its creating handle.
Modelled from the spec: the counter starts at the unshared sentinel (0),
consistent with `IsShared` being `m_refno > 0` and `Release` deleting when
the counter drops below 0. -/
def init (c : List Nat) : RepLife :=
  ⟨0, true, 0, c⟩

/-- Number of `AddRef` calls in a trace. -/
def addC (evs : List Ev) : Nat :=
  evs.countP (fun e => e == Ev.addRef)

/-- Number of `Release` calls in a trace. -/
def relC (evs : List Ev) : Nat :=
  evs.countP (fun e => e == Ev.release)

/-- A trace is valid when every call happens while at least one handle still
references the representation: the handles alive before event `n` number
`1 + addRefs − releases` over the prefix, so validity is
`releases ≤ addRefs` on every proper prefix.  (Each copy performs one
`AddRef`; each handle destruction or reassignment performs one
`Release`.) -/
def Valid (evs : List Ev) : Prop :=
  ∀ n < evs.length, relC (List.take n evs) ≤ addC (List.take n evs)

theorem run_append (s : RepLife) (l : List Ev) (e : Ev) :
    run s (l ++ [e]) = step (run s l) e := by
  simp [run, List.foldl_append]

theorem addC_append (l l2 : List Ev) : addC (l ++ l2) = addC l + addC l2 :=
  List.countP_append _ _ _

theorem relC_append (l l2 : List Ev) : relC (l ++ l2) = relC l + relC l2 :=
  List.countP_append _ _ _

theorem valid_drop_last (l : List Ev) (e : Ev) (h : Valid (l ++ [e])) :
    Valid l ∧ relC l ≤ addC l := by
  constructor
  · intro n hn
    have hn2 : n < (l ++ [e]).length := by simp; omega
    have := h n hn2
    rwa [List.take_append_of_le_length (by omega)] at this
  · have := h l.length (by simp)
    rwa [List.take_left] at this

theorem step_addRef (s : RepLife) :
    (step s Ev.addRef).refno = s.refno + 1 ∧
      (step s Ev.addRef).alive = s.alive ∧
      (step s Ev.addRef).deallocs = s.deallocs ∧
      (step s Ev.addRef).content = s.content := by
  simp [step]

theorem step_release_dead (s : RepLife) (h : s.refno - 1 < 0) :
    (step s Ev.release).refno = s.refno - 1 ∧
      (step s Ev.release).alive = false ∧
      (step s Ev.release).deallocs = s.deallocs + 1 ∧
      (step s Ev.release).content = s.content := by
  simp [step, h]

theorem step_release_live (s : RepLife) (h : ¬s.refno - 1 < 0) :
    (step s Ev.release).refno = s.refno - 1 ∧
      (step s Ev.release).alive = s.alive ∧
      (step s Ev.release).deallocs = s.deallocs ∧
      (step s Ev.release).content = s.content := by
  simp [step, h]

/-- Full characterization of a valid trace: the bytes never change, the
counter is `addRefs − releases`, the memory is live exactly while a
referencing handle remains, and the deallocation count is 1 exactly when
the last referencing handle has released (0 before). -/
theorem run_valid_char (c : List Nat) :
    ∀ evs : List Ev, Valid evs →
      (run (init c) evs).content = c ∧
      (run (init c) evs).refno = (addC evs : Int) - relC evs ∧
      (run (init c) evs).alive = decide (relC evs ≤ addC evs) ∧
      (run (init c) evs).deallocs
        = (if relC evs = addC evs + 1 then 1 else 0) := by
  intro evs
  induction evs using List.reverseRecOn with
  | nil =>
      intro _
      refine ⟨rfl, by simp [run, init, addC, relC], ?_, ?_⟩ <;>
        simp [run, init, addC, relC]
  | append_singleton l e ih =>
      intro hv
      obtain ⟨hvl, hle⟩ := valid_drop_last l e hv
      obtain ⟨ihc, ihr, iha, ihd⟩ := ih hvl
      rw [run_append, addC_append, relC_append]
      cases e with
      | addRef =>
          obtain ⟨sr, sa, sd, sc⟩ := step_addRef (run (init c) l)
          have ha : addC [Ev.addRef] = 1 := by decide
          have hr : relC [Ev.addRef] = 0 := by decide
          rw [ha, hr, sr, sa, sd, sc, ihc, ihr, iha, ihd]
          refine ⟨rfl, by push_cast; ring, ?_, ?_⟩
          · rw [decide_eq_true hle, decide_eq_true (by omega)]
          · rw [if_neg (by omega), if_neg (by omega)]
      | release =>
          have ha : addC [Ev.release] = 0 := by decide
          have hr : relC [Ev.release] = 1 := by decide
          by_cases hz : addC l = relC l
          · have hneg : (run (init c) l).refno - 1 < 0 := by rw [ihr]; omega
            obtain ⟨sr, sa, sd, sc⟩ := step_release_dead (run (init c) l) hneg
            rw [ha, hr, sr, sa, sd, sc, ihc, ihr, ihd]
            refine ⟨rfl, by push_cast; ring, ?_, ?_⟩
            · rw [decide_eq_false (by omega)]
            · rw [if_neg (by omega), if_pos (by omega)]
          · have hpos : ¬(run (init c) l).refno - 1 < 0 := by rw [ihr]; omega
            obtain ⟨sr, sa, sd, sc⟩ := step_release_live (run (init c) l) hpos
            rw [ha, hr, sr, sa, sd, sc, ihc, ihr, iha, ihd]
            refine ⟨rfl, by push_cast; ring, ?_, ?_⟩
            · rw [decide_eq_true hle, decide_eq_true (by omega)]
            · rw [if_neg (by omega), if_neg (by omega)]

theorem countP_replicate (p : Ev → Bool) (k : Nat) (e : Ev) :
    (List.replicate k e).countP p = if p e then k else 0 := by
  induction k with
  | zero => simp
  | succ n ih =>
      rw [List.replicate_succ, List.countP_cons, ih]
      by_cases h : p e <;> simp [h]

/-- The N-handles trace: `N - 1` copies are made of the creating handle, then
`N - 1` of the `N` handles are destroyed. -/
def nTrace (N : Nat) : List Ev :=
  List.replicate (N - 1) Ev.addRef ++ List.replicate (N - 1) Ev.release

theorem addC_nTrace (N : Nat) : addC (nTrace N) = N - 1 := by
  rw [nTrace, addC_append]
  simp [addC, countP_replicate]

theorem relC_nTrace (N : Nat) : relC (nTrace N) = N - 1 := by
  rw [nTrace, relC_append]
  simp [relC, countP_replicate]

theorem nTrace_valid (N : Nat) : Valid (nTrace N) := by
  intro n hn
  rw [nTrace] at hn ⊢
  rw [List.take_append_eq_append_take, relC_append, addC_append]
  simp only [List.length_append, List.length_replicate] at hn
  simp [List.take_replicate, addC, relC, countP_replicate]

/-- C3: reference-count lifetime.  First, the concrete N-handle law: for any
`N ≥ 1`, after `N − 1` copies (each one `AddRef`) and `N − 1` releases the
representation is still allocated with its bytes intact and counter 0
(readable from the last surviving handle), and the final `Release`
deallocates it, for a total of exactly one deallocation.  Second, the
general law: over any valid sequence of `AddRef`/`Release` calls the bytes
never change while allocated, at most one deallocation ever happens, it
happens exactly when releases exceed addRefs by one — i.e. when the last
referencing handle is destroyed or reassigned — and the representation
stays allocated exactly while a referencing handle remains. -/
theorem refcount_lifetime :
    (∀ (c : List Nat) (N : Nat), 1 ≤ N →
      (run (init c) (nTrace N)).alive = true ∧
      (run (init c) (nTrace N)).content = c ∧
      (run (init c) (nTrace N)).refno = 0 ∧
      (run (init c) (nTrace N)).deallocs = 0 ∧
      (step (run (init c) (nTrace N)) Ev.release).alive = false ∧
      (step (run (init c) (nTrace N)) Ev.release).deallocs = 1) ∧
      (∀ (c : List Nat) (evs : List Ev), Valid evs →
        (run (init c) evs).content = c ∧
        (run (init c) evs).deallocs ≤ 1 ∧
        ((run (init c) evs).deallocs = 1 ↔ relC evs = addC evs + 1) ∧
        ((run (init c) evs).alive = true ↔ relC evs ≤ addC evs)) := by
  constructor
  · intro c N _
    obtain ⟨hc, hr, ha, hd⟩ := run_valid_char c (nTrace N) (nTrace_valid N)
    rw [addC_nTrace, relC_nTrace] at hr ha hd
    have hr0 : (run (init c) (nTrace N)).refno = 0 := by rw [hr]; omega
    have halive : (run (init c) (nTrace N)).alive = true := by
      rw [ha]; simp
    have hd0 : (run (init c) (nTrace N)).deallocs = 0 := by
      rw [hd, if_neg (by omega)]
    obtain ⟨_, sa, sd, _⟩ :=
      step_release_dead (run (init c) (nTrace N)) (by rw [hr0]; decide)
    exact ⟨halive, hc, hr0, hd0, sa, by rw [sd, hd0]⟩
  · intro c evs hv
    obtain ⟨hc, _, ha, hd⟩ := run_valid_char c evs hv
    refine ⟨hc, ?_, ?_, ?_⟩
    · rw [hd]; split_ifs <;> omega
    · rw [hd]; split_ifs with h <;> simp [h]
    · rw [ha]; simp

/-- Witness for C3: the theorem applied at `N = 3` and at the concrete valid
trace `[addRef, release, release]`, every hypothesis evaluated. -/
theorem refcount_lifetime_witness :
    ((step (run (init [7, 8]) (nTrace 3)) Ev.release).deallocs = 1 ∧
      (run (init [7, 8]) (nTrace 3)).content = [7, 8]) ∧
      ((run (init [7, 8]) [Ev.addRef, Ev.release, Ev.release]).deallocs = 1 ↔
        relC [Ev.addRef, Ev.release, Ev.release]
          = addC [Ev.addRef, Ev.release, Ev.release] + 1) :=
  ⟨⟨(refcount_lifetime.1 [7, 8] 3 (by norm_num)).2.2.2.2.2,
      (refcount_lifetime.1 [7, 8] 3 (by norm_num)).2.1⟩,
    (refcount_lifetime.2 [7, 8] [Ev.addRef, Ev.release, Ev.release]
      (by
        intro n hn
        have hn3 : n < 3 := by simpa using hn
        interval_cases n <;> decide)).2.2.1⟩

end RefCount

namespace Failure

/-- Raw buffer view of a representation for the failure-safety analysis:
`data` is the allocated buffer (its length is `m_capacity`), `size` is
`m_size`, the logical length.  Bytes past `size` are uninitialized and
never read. -/
structure RepBuf where
  data : List Nat
  size : Nat
deriving DecidableEq, Repr

/-- The bytes a reader can observe: the first `size` bytes of the buffer. -/
def RepBuf.visible (r : RepBuf) : List Nat :=
  r.data.take r.size

/-- Translated from `octets.h` line 70: `SetSize(size) { m_size = size; }`. -/
def RepBuf.SetSize (r : RepBuf) (n : Nat) : RepBuf :=
  { r with size := n }

/-- Modelled from the spec: `Rep::Reserve` (declared at `octets.h` line 91,
body in the missing octets.cpp) grows capacity to at least the requested
size, preserving existing bytes up to `size`; nothing happens when the
capacity already suffices.  The allocation of the larger buffer may fail
(`allocOk = false`): the failure propagates (`none`) before a single byte
has been written anywhere.  New capacity is at the representation's
discretion; the model grows exactly to the request, with the new slack
uninitialized (modelled as zeros, never read). -/
def RepBuf.Reserve (allocOk : Bool) (r : RepBuf) (n : Nat) : Option RepBuf :=
  if n ≤ r.data.length then some r
  else if allocOk then
    some ⟨r.data ++ List.replicate (n - r.data.length) 0, r.size⟩
  else none

/-- A `memcpy` of `d` into the buffer at offset `off`; touches neither the
logical size nor bytes outside `[off, off + len d)`. -/
def RepBuf.writeAt (r : RepBuf) (off : Nat) (d : List Nat) : RepBuf :=
  ⟨r.data.take off ++ d ++ r.data.drop (off + d.length), r.size⟩

/-- Modelled from the spec: the in-place grow path of `Append` (body in the
missing octets.cpp) — Reserve to the new total (the only step that can
fail), memcpy the new bytes after the existing ones, then SetSize. -/
def appendBuf (allocOk : Bool) (r : RepBuf) (d : List Nat) : Option RepBuf :=
  match r.Reserve allocOk (r.size + d.length) with
  | none => none
  | some r1 => some ((r1.writeAt r.size d).SetSize (r.size + d.length))

/-- Modelled from the spec: the in-place path of `Assign` (body in the
missing octets.cpp) — Reserve to the new size (the only step that can
fail), write the bytes at offset 0, then SetSize. -/
def assignBuf (allocOk : Bool) (r : RepBuf) (d : List Nat) : Option RepBuf :=
  match r.Reserve allocOk d.length with
  | none => none
  | some r1 => some ((r1.writeAt 0 d).SetSize d.length)

theorem RepBuf.reserve_spec (allocOk : Bool) (r : RepBuf) (n : Nat)
    (hinv : r.size ≤ r.data.length) :
    ∀ r1, r.Reserve allocOk n = some r1 →
      r1.size = r.size ∧ n ≤ r1.data.length ∧ r.size ≤ r1.data.length ∧
        r1.data.take r.size = r.data.take r.size := by
  intro r1 h
  unfold RepBuf.Reserve at h
  split_ifs at h with h1 h2
  · cases h
    exact ⟨rfl, h1, hinv, rfl⟩
  · cases h
    refine ⟨rfl, ?_, ?_, ?_⟩
    · simp; omega
    · simp; omega
    · exact List.take_append_of_le_length hinv

/-- C9: strong failure safety of the mutators.  For every representation
satisfying the `size ≤ capacity` invariant: `Reserve` either fails before
any byte is written — leaving the representation the handle holds exactly
in its pre-call state — or succeeds preserving the visible bytes even when
it reallocates; on the success path `Append` makes visible exactly the old
bytes followed by the new ones and `Assign` exactly the new bytes; and the
only failing step of either mutator is that allocation — a failed call
returns with the original representation value intact, never with a
partial copy visible. -/
theorem mutators_strong_safety (allocOk : Bool) (r : RepBuf) (d : List Nat)
    (hinv : r.size ≤ r.data.length) :
    (∀ r1, r.Reserve allocOk (r.size + d.length) = some r1 →
        r1.visible = r.visible ∧ r1.size = r.size) ∧
      (match appendBuf allocOk r d with
       | some r2 => r2.visible = r.visible ++ d
                      ∧ r2.size = r.size + d.length
       | none => r.Reserve allocOk (r.size + d.length) = none) ∧
      (match assignBuf allocOk r d with
       | some r2 => r2.visible = d ∧ r2.size = d.length
       | none => r.Reserve allocOk d.length = none) := by
  refine ⟨?_, ?_, ?_⟩
  · intro r1 h
    obtain ⟨hs, _, hle, ht⟩ := RepBuf.reserve_spec allocOk r _ hinv r1 h
    exact ⟨by rw [RepBuf.visible, RepBuf.visible, hs, ht], hs⟩
  · cases hres : r.Reserve allocOk (r.size + d.length) with
    | none => simp [appendBuf, hres]
    | some r1 =>
        obtain ⟨hs, hn, hle, ht⟩ :=
          RepBuf.reserve_spec allocOk r _ hinv r1 hres
        simp only [appendBuf, hres]
        constructor
        · have hlen : (r1.data.take r.size).length = r.size := by
            rw [List.length_take]; omega
          simp only [RepBuf.visible, RepBuf.SetSize, RepBuf.writeAt]
          rw [List.take_append_eq_append_take, List.take_append_eq_append_take,
            List.take_take,
            Nat.min_eq_right (show r.size ≤ r.size + d.length from by omega),
            List.length_append, hlen,
            show r.size + d.length - r.size = d.length from by omega,
            show r.size + d.length - (r.size + d.length) = 0 from by omega,
            List.take_length, List.take_zero, List.append_nil, ht]
        · rfl
  · cases hres : r.Reserve allocOk d.length with
    | none => simp [assignBuf, hres]
    | some r1 =>
        obtain ⟨hs, hn, hle, ht⟩ :=
          RepBuf.reserve_spec allocOk r _ hinv r1 hres
        simp only [assignBuf, hres]
        constructor
        · simp only [RepBuf.visible, RepBuf.SetSize, RepBuf.writeAt,
            List.take_zero, List.nil_append]
          rw [List.take_append_eq_append_take, List.take_length, Nat.sub_self,
            List.take_zero, List.append_nil]
        · rfl

/-- Witness for C9: the theorem applied at a concrete representation (bytes
`[5, 6]` of capacity 2), a one-byte append with a successful allocation,
the invariant hypothesis evaluated; the Reserve component is applied at the
concrete grown buffer. -/
theorem mutators_strong_safety_witness :
    (RepBuf.mk [5, 6] 2).Reserve true (2 + 1) = some (RepBuf.mk [5, 6, 0] 2) ∧
      ((RepBuf.mk [5, 6, 0] 2).visible = (RepBuf.mk [5, 6] 2).visible ∧
        (RepBuf.mk [5, 6, 0] 2).size = (RepBuf.mk [5, 6] 2).size) :=
  ⟨by decide,
    (mutators_strong_safety true (RepBuf.mk [5, 6] 2) [9] (by decide)).1
      (RepBuf.mk [5, 6, 0] 2) (by decide)⟩

end Failure

end ZBase
